import Mathlib

/-!
Verification development for the XML Line Mapping Tool
(source files `appFinal.py` and `appVersion2.py`).

Shallow embedding conventions:
- a raw source line is a `String`, manipulated as its `List Char` of
  characters; Python slicing/`find`/`strip` become `take`/`drop`,
  `findSub` and `pyStrip` below;
- the LCS table `dp` of `map_lines` is embedded as the function
  `dp o n : Nat -> Nat -> Nat` that the table tabulates: `dp o n i j`
  is exactly the table entry `dp[i][j]` for `i <= len(o)`, `j <= len(n)`
  (row 0 and column 0 are zero, and the recurrence of the fill loop
  holds definitionally);
- the backtracking `while` loop of `map_lines` is the well-founded
  recursion `backtrack` on the measure `i + j`, with the three branch
  conditions written exactly as in the source;
- Python `None` is `Option.none`; an operation that raises at run time
  (iterating `None`) is `Except.error`.
-/

/-- The whitespace characters stripped by Python's `str.strip()`
(restricted to the ASCII range used by the tool's input lines). -/
def isPySpace (c : Char) : Bool :=
  c = ' ' || c = '\t' || c = '\n' || c = '\r' || c = '\x0b' || c = '\x0c'

/-- Python's `line.find(pat)` for a nonempty pattern: the least index at
which `pat` occurs as a contiguous substring, `none` for Python's `-1`. -/
def findSub (pat : List Char) : List Char → Option Nat
  | [] => if pat.isPrefixOf ([] : List Char) then some 0 else none
  | c :: rest =>
    if pat.isPrefixOf (c :: rest) then some 0
    else (findSub pat rest).map fun k => k + 1

/-- The `//`-comment removal step of `normalize_line`:
`if '//' in line: line = line.split('//', 1)[0]`. -/
def removeLineComment (l : List Char) : List Char :=
  match findSub ['/', '/'] l with
  | some k => l.take k
  | none => l

/-- The block-comment removal loop of `normalize_line`: while the line
contains `/*`, find the first `/*` and the nearest `*/` after it; if the
closer is missing, stop (Python's `break`, and likewise the loop exit
when `'*/' not in line`); otherwise remove the span (inclusive) and
continue on the shortened line. -/
def removeBlockComments (l : List Char) : List Char :=
  match h1 : findSub ['/', '*'] l with
  | none => l
  | some s =>
    match h2 : findSub ['*', '/'] (l.drop (s + 2)) with
    | none => l
    | some e => removeBlockComments (l.take s ++ l.drop (s + 2 + e + 2))
termination_by l.length
decreasing_by
  have key : ∀ (p m : List Char) (k : Nat),
      findSub p m = some k → k + p.length ≤ m.length := by
    intro p m
    induction m with
    | nil =>
      intro k h
      rw [findSub] at h
      split at h
      · rename_i hp
        cases h
        simpa using (List.isPrefixOf_iff_prefix.mp hp).length_le
      · cases h
    | cons c rest ih =>
      intro k h
      rw [findSub] at h
      split at h
      · rename_i hp
        cases h
        simpa using (List.isPrefixOf_iff_prefix.mp hp).length_le
      · rcases Option.map_eq_some'.mp h with ⟨k', hk', rfl⟩
        have := ih k' hk'
        simp only [List.length_cons]
        omega
  have hs := key _ _ _ h1
  have he := key _ _ _ h2
  simp only [List.length_append, List.length_take, List.length_drop,
    List.length_cons, List.length_nil] at hs he ⊢
  omega

/-- Right-strip: remove trailing Python whitespace. -/
def stripRight (l : List Char) : List Char :=
  (l.reverse.dropWhile isPySpace).reverse

/-- Python's `str.strip()`: remove leading and trailing whitespace. -/
def pyStrip (l : List Char) : List Char :=
  stripRight (l.dropWhile isPySpace)

/-- The body of `normalize_line` on character lists: remove the `//`
suffix, remove single-line block comments, trim whitespace. -/
def normalizeChars (l : List Char) : List Char :=
  pyStrip (removeBlockComments (removeLineComment l))

/-- `normalize_line` of `appFinal.py` / `appVersion2.py` (the two copies
are textually identical). -/
def normalize_line (line : String) : String :=
  String.mk (normalizeChars line.toList)

/-- One row of the LCS table, built left to right exactly like the inner
`for j` loop: entry `j+1` uses the previous row (`prev`) at `j` and
`j+1` and the current row at `j`. -/
def dpCol (n : List String) (prev : Nat → Nat) (oi : Option String) : Nat → Nat
  | 0 => 0
  | j + 1 =>
    if oi = n[j]? then prev j + 1
    else max (prev (j + 1)) (dpCol n prev oi j)

/-- The LCS table of `map_lines`: `dp o n i j` is the table entry
`dp[i][j]` for `i ≤ len(o)`, `j ≤ len(n)` (row 0 and column 0 are 0, and
the fill-loop recurrence holds definitionally). -/
def dp (o n : List String) : Nat → Nat → Nat
  | 0 => fun _ => 0
  | i + 1 => dpCol n (dp o n i) o[i]?

/-- The backtracking `while i > 0 or j > 0` loop of `map_lines`,
emitting `("match", i, j)`, `("ins", -1, j)`, `("del", i, -1)` tuples in
the order Python appends them (head of the list = first append). -/
def backtrack (o n : List String) (i j : Nat) : List (String × Int × Int) :=
  if h0 : i = 0 ∧ j = 0 then []
  else if hm : 0 < i ∧ 0 < j ∧ o[i - 1]? = n[j - 1]? then
    ("match", (i : Int), (j : Int)) :: backtrack o n (i - 1) (j - 1)
  else if hins : 0 < j ∧ (i = 0 ∨ dp o n i (j - 1) ≥ dp o n (i - 1) j) then
    ("ins", (-1 : Int), (j : Int)) :: backtrack o n i (j - 1)
  else
    ("del", (i : Int), (-1 : Int)) :: backtrack o n (i - 1) j
termination_by i + j
decreasing_by
  · obtain ⟨hi, hj, -⟩ := hm
    omega
  · obtain ⟨hj, -⟩ := hins
    omega
  · rcases Nat.eq_zero_or_pos i with hi | hi
    · exfalso
      rcases Nat.eq_zero_or_pos j with hj | hj
      · exact h0 ⟨hi, hj⟩
      · exact hins ⟨hj, Or.inl hi⟩
    · omega

/-- The conversion of the (reversed) op list to
`(orig_line_number, new_line_number)` pairs. -/
def opsToMappings (ops : List (String × Int × Int)) : List (Int × Int) :=
  ops.map fun op =>
    if op.1 = "match" then (op.2.1, op.2.2)
    else if op.1 = "del" then (op.2.1, -1)
    else (-1, op.2.2)

/-- `map_lines` of `appFinal.py`: LCS alignment of the two (already
normalized) line sequences, as a list of 1-based `(orig, new)` pairs
with `-1` for the absent side. -/
def map_lines (original_lines new_lines : List String) : List (Int × Int) :=
  opsToMappings
    ((backtrack original_lines new_lines
        original_lines.length new_lines.length).reverse)

/-- `matched` of `appFinal.py` `main`:
`sum(1 for o, n in mappings if o > 0 and n > 0)`. -/
def matchedCount (mappings : List (Int × Int)) : Nat :=
  mappings.countP fun p => decide (0 < p.1 ∧ 0 < p.2)

/-- `removed` of `appFinal.py` `main`:
`sum(1 for o, n in mappings if o > 0 and n == -1)`. -/
def removedCount (mappings : List (Int × Int)) : Nat :=
  mappings.countP fun p => decide (0 < p.1 ∧ p.2 = -1)

/-- `added` of `appFinal.py` `main`:
`sum(1 for o, n in mappings if o == -1 and n > 0)`. -/
def addedCount (mappings : List (Int × Int)) : Nat :=
  mappings.countP fun p => decide (p.1 = -1 ∧ 0 < p.2)

/-- The output-filename sanitization of `appFinal.py` `main`: every
character that is not alphanumeric and not `-`/`_` becomes `_`; an empty
result falls back to the literal `"TEST"`. -/
def safeTestName (test_name : String) : String :=
  let safe := String.mk (test_name.toList.map fun c =>
    if c.isAlphanum || c = '-' || c = '_' then c else '_')
  if safe = "" then "TEST" else safe

/-- The output file name `f"(safe_test).xml"` of `appFinal.py` `main`. -/
def outputFilename (test_name : String) : String :=
  safeTestName test_name ++ ".xml"

/-- `map_lines` of `appVersion2.py`: it builds the LCS table (the same
fill loop as `appFinal.py`) and then falls off the end of the function
body -- there is no backtracking and no `return` statement, so the call
evaluates to Python's `None`. -/
def map_linesV2 (original_lines new_lines : List String) :
    Option (List (Int × Int)) :=
  let n := original_lines.length
  let m := new_lines.length
  let _dp := (List.range (n + 1)).map fun i =>
    (List.range (m + 1)).map fun j => dp original_lines new_lines i j
  none

/-- The per-version stats expression of `appVersion2.py` `main`:
`sum(1 for (_, new_num) in mappings if new_num != -1)`. Iterating
Python's `None` raises `TypeError`, modelled as `Except.error`. -/
def matchedV2 (mappings : Option (List (Int × Int))) : Except String Nat :=
  match mappings with
  | some ms => Except.ok (ms.countP fun p => decide (p.2 ≠ -1))
  | none => Except.error "TypeError"

/-- The `origLine` values of a mapping list that differ from `-1`. -/
def origsOf (mappings : List (Int × Int)) : List Int :=
  mappings.filterMap fun p => if p.1 = -1 then none else some p.1

/-- The `newLine` values of a mapping list that differ from `-1`. -/
def newsOf (mappings : List (Int × Int)) : List Int :=
  mappings.filterMap fun p => if p.2 = -1 then none else some p.2

/-- The descending list of integers `[i, i-1, ..., 1]` -- the order in
which the backtracking loop consumes positions. -/
def descInts : Nat → List Int
  | 0 => []
  | k + 1 => ((k : Int) + 1) :: descInts k

/-- `pat` occurs as a contiguous substring of `l`. -/
def hasSub (pat l : List Char) : Prop :=
  ∃ j, pat <+: l.drop j

/-- The loop of `removeBlockComments` makes no step on `l`: either there
is no `/*`, or there is no `*/` after the first `/*`. -/
def rbcTerminal (l : List Char) : Bool :=
  match findSub ['/', '*'] l with
  | none => true
  | some s => (findSub ['*', '/'] (l.drop (s + 2))).isNone

/-- `l` contains a `/*` with a `*/` starting at or after its end --
the position-indexed version of "the block-removal loop can step". -/
def hasBlock (l : List Char) : Prop :=
  ∃ s e, s + 2 ≤ e ∧ ['/', '*'] <+: l.drop s ∧ ['*', '/'] <+: l.drop e

/-! ### Properties of `findSub` (Python's `str.find`) -/

theorem findSub_length_le (p : List Char) :
    ∀ (m : List Char) (k : Nat), findSub p m = some k → k + p.length ≤ m.length := by
  intro m
  induction m with
  | nil =>
    intro k h
    rw [findSub] at h
    split at h
    · rename_i hp
      cases h
      simpa using (List.isPrefixOf_iff_prefix.mp hp).length_le
    · cases h
  | cons c rest ih =>
    intro k h
    rw [findSub] at h
    split at h
    · rename_i hp
      cases h
      simpa using (List.isPrefixOf_iff_prefix.mp hp).length_le
    · rcases Option.map_eq_some'.mp h with ⟨k', hk', rfl⟩
      have := ih k' hk'
      simp only [List.length_cons]
      omega

theorem findSub_occurrence (p : List Char) :
    ∀ (l : List Char) (k : Nat), findSub p l = some k → p <+: l.drop k := by
  intro l
  induction l with
  | nil =>
    intro k h
    rw [findSub] at h
    split at h
    · rename_i hp
      cases h
      simpa using List.isPrefixOf_iff_prefix.mp hp
    · cases h
  | cons c rest ih =>
    intro k h
    rw [findSub] at h
    split at h
    · rename_i hp
      cases h
      simpa using List.isPrefixOf_iff_prefix.mp hp
    · rcases Option.map_eq_some'.mp h with ⟨k', hk', rfl⟩
      simpa [List.drop_succ_cons] using ih k' hk'

theorem findSub_min (p : List Char) :
    ∀ (l : List Char) (k : Nat), findSub p l = some k →
      ∀ j, p <+: l.drop j → k ≤ j := by
  intro l
  induction l with
  | nil =>
    intro k h j _
    rw [findSub] at h
    split at h
    · cases h; omega
    · cases h
  | cons c rest ih =>
    intro k h j hj
    rw [findSub] at h
    split at h
    · cases h; omega
    · rename_i hp
      rcases Option.map_eq_some'.mp h with ⟨k', hk', rfl⟩
      cases j with
      | zero =>
        exfalso
        exact hp (List.isPrefixOf_iff_prefix.mpr (by simpa using hj))
      | succ j' =>
        have := ih k' hk' j' (by simpa [List.drop_succ_cons] using hj)
        omega

theorem hasSub_cons_iff (p : List Char) (c : Char) (rest : List Char) :
    hasSub p (c :: rest) ↔ p <+: c :: rest ∨ hasSub p rest := by
  constructor
  · rintro ⟨j, hj⟩
    cases j with
    | zero => exact Or.inl (by simpa using hj)
    | succ j' => exact Or.inr ⟨j', by simpa [List.drop_succ_cons] using hj⟩
  · rintro (h | ⟨j, hj⟩)
    · exact ⟨0, by simpa using h⟩
    · exact ⟨j + 1, by simpa [List.drop_succ_cons] using hj⟩

theorem findSub_none_of_not_hasSub (p l : List Char) (h : ¬ hasSub p l) :
    findSub p l = none := by
  cases hf : findSub p l with
  | none => rfl
  | some k => exact absurd ⟨k, findSub_occurrence p l k hf⟩ h

theorem not_hasSub_of_findSub_none (p : List Char) :
    ∀ (l : List Char), findSub p l = none → ¬ hasSub p l := by
  intro l
  induction l with
  | nil =>
    intro h hsub
    rcases hsub with ⟨j, hj⟩
    rw [findSub] at h
    split at h
    · cases h
    · rename_i hp
      simp only [List.drop_nil] at hj
      exact hp (List.isPrefixOf_iff_prefix.mpr hj)
  | cons c rest ih =>
    intro h hsub
    rw [findSub] at h
    split at h
    · cases h
    · rename_i hp
      rcases (hasSub_cons_iff p c rest).mp hsub with h0 | h1
      · exact hp (List.isPrefixOf_iff_prefix.mpr h0)
      · exact ih (by simpa using h) h1

/-! ### `hasSub` under append, take, drop -/

theorem hasSub_append_left (p u v : List Char) (h : hasSub p u) :
    hasSub p (u ++ v) := by
  rcases h with ⟨j, hj⟩
  refine ⟨j, ?_⟩
  rw [List.drop_append_eq_append_drop]
  exact hj.trans (List.prefix_append _ _)

theorem hasSub_append_right (p u v : List Char) (h : hasSub p v) :
    hasSub p (u ++ v) := by
  rcases h with ⟨j, hj⟩
  refine ⟨u.length + j, ?_⟩
  rw [List.drop_append_eq_append_drop, List.drop_eq_nil_of_le (by omega),
    List.nil_append]
  simpa [Nat.add_sub_cancel_left] using hj

theorem hasSub_take (p l : List Char) (k : Nat) (h : hasSub p (l.take k)) :
    hasSub p l := by
  rcases h with ⟨j, hj⟩
  rw [List.drop_take] at hj
  exact ⟨j, hj.trans (List.take_prefix _ _)⟩

theorem hasSub_drop (p l : List Char) (d : Nat) (h : hasSub p (l.drop d)) :
    hasSub p l := by
  rcases h with ⟨j, hj⟩
  rw [List.drop_drop] at hj
  exact ⟨d + j, hj⟩

/-- Two-element patterns as a pair of indexed characters. -/
theorem prefix2_iff_getElem (a b : Char) (l : List Char) (j : Nat) :
    [a, b] <+: l.drop j ↔ l[j]? = some a ∧ l[j + 1]? = some b := by
  have h0 : (l.drop j)[0]? = l[j]? := by
    simp [List.getElem?_drop]
  have h1 : (l.drop j)[1]? = l[j + 1]? := by
    simp [List.getElem?_drop]
  rw [← h0, ← h1]
  cases hd : l.drop j with
  | nil => simp
  | cons c rest =>
    cases rest with
    | nil =>
      simp only [List.cons_prefix_cons, List.prefix_nil]
      simp
    | cons d rest' =>
      simp only [List.cons_prefix_cons]
      simp [eq_comm, List.nil_prefix]

/-- Junction analysis: an occurrence of `[a, b]` in `u ++ v` is inside
`u`, inside `v`, or spans the boundary. -/
theorem hasSub2_append (a b : Char) :
    ∀ (u v : List Char), hasSub [a, b] (u ++ v) →
      hasSub [a, b] u ∨ hasSub [a, b] v ∨
        (u.getLast? = some a ∧ v.head? = some b) := by
  intro u
  induction u with
  | nil =>
    intro v h
    simp only [List.nil_append] at h
    exact Or.inr (Or.inl h)
  | cons c u' ih =>
    intro v h
    rw [List.cons_append, hasSub_cons_iff] at h
    rcases h with h0 | h1
    · rw [List.cons_prefix_cons] at h0
      rcases h0 with ⟨rfl, hb⟩
      cases u' with
      | nil =>
        simp only [List.nil_append] at hb
        cases v with
        | nil => simp [List.prefix_nil] at hb
        | cons d v' =>
          rw [List.cons_prefix_cons] at hb
          exact Or.inr (Or.inr ⟨rfl, by simp [hb.1]⟩)
      | cons d u'' =>
        rw [List.cons_append, List.cons_prefix_cons] at hb
        refine Or.inl ⟨0, ?_⟩
        simp only [List.drop_zero, List.cons_prefix_cons]
        exact ⟨trivial, hb.1, List.nil_prefix⟩
    · rcases ih v h1 with h2 | h2 | h2
      · exact Or.inl ((hasSub_cons_iff _ _ _).mpr (Or.inr h2))
      · exact Or.inr (Or.inl h2)
      · cases u' with
        | nil => simp at h2
        | cons d u'' =>
          exact Or.inr (Or.inr ⟨by rw [List.getLast?_cons_cons]; exact h2.1, h2.2⟩)

/-! ### Step equations for the block-comment removal loop -/

theorem rbc_of_no_open (l : List Char) (h : findSub ['/', '*'] l = none) :
    removeBlockComments l = l := by
  rw [removeBlockComments.eq_def]
  split
  · rfl
  · rename_i s hs
    rw [h] at hs
    cases hs

theorem rbc_of_no_close (l : List Char) (s : Nat)
    (h1 : findSub ['/', '*'] l = some s)
    (h2 : findSub ['*', '/'] (l.drop (s + 2)) = none) :
    removeBlockComments l = l := by
  rw [removeBlockComments.eq_def]
  split
  · rfl
  · rename_i s' hs
    rw [h1] at hs
    cases hs
    split
    · rfl
    · rename_i e he
      rw [h2] at he
      cases he

theorem rbc_step (l : List Char) (s e : Nat)
    (h1 : findSub ['/', '*'] l = some s)
    (h2 : findSub ['*', '/'] (l.drop (s + 2)) = some e) :
    removeBlockComments l =
      removeBlockComments (l.take s ++ l.drop (s + 2 + e + 2)) := by
  rw [removeBlockComments.eq_def]
  split
  · rename_i hs
    rw [h1] at hs
    cases hs
  · rename_i s' hs
    rw [h1] at hs
    cases hs
    split
    · rename_i he
      rw [h2] at he
      cases he
    · rename_i e' he
      rw [h2] at he
      cases he
      rfl

/-! ### The loop always reaches a terminal state, and terminal states are
fixed points -/

theorem rbcTerminal_of_rbc :
    ∀ (N : Nat) (l : List Char), l.length ≤ N →
      rbcTerminal (removeBlockComments l) = true := by
  intro N
  induction N with
  | zero =>
    intro l hl
    have : l = [] := List.length_eq_zero.mp (by omega)
    subst this
    rw [rbc_of_no_open [] rfl]
    rfl
  | succ N ih =>
    intro l hl
    cases hf : findSub ['/', '*'] l with
    | none =>
      rw [rbc_of_no_open l hf]
      simp [rbcTerminal, hf]
    | some s =>
      cases hg : findSub ['*', '/'] (l.drop (s + 2)) with
      | none =>
        rw [rbc_of_no_close l s hf hg]
        simp [rbcTerminal, hf, hg]
      | some e =>
        rw [rbc_step l s e hf hg]
        apply ih
        have hs := findSub_length_le _ _ _ hf
        have he := findSub_length_le _ _ _ hg
        simp only [List.length_cons, List.length_nil, List.length_drop] at hs he
        simp only [List.length_append, List.length_take, List.length_drop]
        omega

theorem rbc_terminal (l : List Char) :
    rbcTerminal (removeBlockComments l) = true :=
  rbcTerminal_of_rbc l.length l (Nat.le_refl _)

theorem rbc_of_terminal (l : List Char) (h : rbcTerminal l = true) :
    removeBlockComments l = l := by
  cases hf : findSub ['/', '*'] l with
  | none => exact rbc_of_no_open l hf
  | some s =>
    rw [rbcTerminal, hf] at h
    exact rbc_of_no_close l s hf (Option.isNone_iff_eq_none.mp h)

/-! ### Terminal states characterized without indices into the loop -/

theorem not_hasBlock_of_terminal (l : List Char) (h : rbcTerminal l = true) :
    ¬ hasBlock l := by
  rintro ⟨s, e, hse, hs, he⟩
  rw [rbcTerminal] at h
  cases hf : findSub ['/', '*'] l with
  | none => exact not_hasSub_of_findSub_none _ l hf ⟨s, hs⟩
  | some s0 =>
    rw [hf] at h
    have hnone := Option.isNone_iff_eq_none.mp h
    have hle : s0 ≤ s := findSub_min _ l s0 hf s hs
    refine not_hasSub_of_findSub_none _ _ hnone ⟨e - (s0 + 2), ?_⟩
    rw [List.drop_drop]
    have : s0 + 2 + (e - (s0 + 2)) = e := by omega
    rw [this]
    exact he

theorem terminal_of_not_hasBlock (l : List Char) (h : ¬ hasBlock l) :
    rbcTerminal l = true := by
  rw [rbcTerminal]
  cases hf : findSub ['/', '*'] l with
  | none => rfl
  | some s =>
    cases hg : findSub ['*', '/'] (l.drop (s + 2)) with
    | none => simp [hg]
    | some e =>
      exfalso
      apply h
      refine ⟨s, s + 2 + e, by omega, findSub_occurrence _ l s hf, ?_⟩
      have := findSub_occurrence _ _ e hg
      rwa [List.drop_drop] at this

/-! ### The `//`-free property: established by `removeLineComment`,
preserved by `removeBlockComments` and by stripping -/

theorem rlc_no_pp (l : List Char) :
    ¬ hasSub ['/', '/'] (removeLineComment l) := by
  rw [removeLineComment]
  cases hf : findSub ['/', '/'] l with
  | none => exact not_hasSub_of_findSub_none _ l hf
  | some k =>
    rintro ⟨j, hj⟩
    rw [List.drop_take] at hj
    have hlen : 2 ≤ k - j := by
      have := hj.length_le
      simp only [List.length_cons, List.length_nil, List.length_take] at this
      omega
    have hocc : ['/', '/'] <+: l.drop j := hj.trans (List.take_prefix _ _)
    have := findSub_min _ l k hf j hocc
    omega

theorem rbc_no_pp :
    ∀ (N : Nat) (l : List Char), l.length ≤ N →
      ¬ hasSub ['/', '/'] l → ¬ hasSub ['/', '/'] (removeBlockComments l) := by
  intro N
  induction N with
  | zero =>
    intro l hl h
    have : l = [] := List.length_eq_zero.mp (by omega)
    subst this
    rw [rbc_of_no_open [] rfl]
    exact h
  | succ N ih =>
    intro l hl h
    cases hf : findSub ['/', '*'] l with
    | none => rw [rbc_of_no_open l hf]; exact h
    | some s =>
      cases hg : findSub ['*', '/'] (l.drop (s + 2)) with
      | none => rw [rbc_of_no_close l s hf hg]; exact h
      | some e =>
        rw [rbc_step l s e hf hg]
        have hs := findSub_length_le _ _ _ hf
        have he := findSub_length_le _ _ _ hg
        simp only [List.length_cons, List.length_nil, List.length_drop] at hs he
        refine ih _ ?_ ?_
        · simp only [List.length_append, List.length_take, List.length_drop]
          omega
        · -- the shortened line still has no `//`
          intro hsub
          rcases hasSub2_append '/' '/' _ _ hsub with h1 | h1 | h1
          · exact h (hasSub_take _ l s h1)
          · exact h (hasSub_drop _ l _ h1)
          · -- junction: the char before the removed `/*` is `/`, and the
            -- opener starts with `/`, so `//` was already present at s-1
            rcases h1 with ⟨hlast, -⟩
            have hs_open := (prefix2_iff_getElem '/' '*' l s).mp
              (findSub_occurrence _ l s hf)
            have hs_pos : 0 < s := by
              rcases Nat.eq_zero_or_pos s with h0 | h0
              · subst h0
                simp at hlast
              · exact h0
            have htake_len : (l.take s).length = s := by
              simp only [List.length_take]
              omega
            have hlast' : l[s - 1]? = some '/' := by
              rw [List.getLast?_eq_getElem?, htake_len, List.getElem?_take] at hlast
              split at hlast
              · exact hlast
              · cases hlast
            apply h
            refine ⟨s - 1, (prefix2_iff_getElem '/' '/' l (s - 1)).mpr ⟨hlast', ?_⟩⟩
            have : s - 1 + 1 = s := by omega
            rw [this]
            exact hs_open.1

/-! ### Stripping: infix decomposition and idempotence -/

theorem stripRight_append (l : List Char) :
    ∃ w, l = stripRight l ++ w ∧ ∀ c ∈ w, isPySpace c = true := by
  refine ⟨(l.reverse.takeWhile isPySpace).reverse, ?_, ?_⟩
  · conv_lhs => rw [← List.reverse_reverse l,
      ← List.takeWhile_append_dropWhile isPySpace l.reverse]
    rw [List.reverse_append, stripRight]
  · intro c hc
    rw [List.mem_reverse] at hc
    exact List.mem_takeWhile_imp hc

theorem pyStrip_decomp (l : List Char) :
    ∃ u w, l = u ++ pyStrip l ++ w := by
  rcases stripRight_append (l.dropWhile isPySpace) with ⟨w, hw, -⟩
  refine ⟨l.takeWhile isPySpace, w, ?_⟩
  conv_lhs => rw [← List.takeWhile_append_dropWhile isPySpace l]
  rw [pyStrip, List.append_assoc, ← hw]

theorem hasSub_of_middle (p u x w : List Char) (h : hasSub p x) :
    hasSub p (u ++ x ++ w) := by
  rw [List.append_assoc]
  exact hasSub_append_right p u _ (hasSub_append_left p x w h)

theorem prefix_drop_middle (p u x w : List Char) (j : Nat)
    (h : p <+: x.drop j) : p <+: (u ++ x ++ w).drop (u.length + j) := by
  rw [List.append_assoc, List.drop_append_eq_append_drop,
    List.drop_eq_nil_of_le (by omega), List.nil_append,
    Nat.add_sub_cancel_left, List.drop_append_eq_append_drop]
  exact h.trans (List.prefix_append _ _)

theorem hasBlock_middle (u x w : List Char) (h : hasBlock x) :
    hasBlock (u ++ x ++ w) := by
  rcases h with ⟨s, e, hse, hs, he⟩
  exact ⟨u.length + s, u.length + e, by omega,
    prefix_drop_middle _ u x w s hs, prefix_drop_middle _ u x w e he⟩

theorem dropWhile_of_dropWhile (p : Char → Bool) (l : List Char) :
    (l.dropWhile p).dropWhile p = l.dropWhile p := by
  induction l with
  | nil => rfl
  | cons c rest ih =>
    rw [List.dropWhile_cons]
    split
    · exact ih
    · rename_i hc
      rw [List.dropWhile_cons, if_neg hc]

theorem stripRight_idem (l : List Char) :
    stripRight (stripRight l) = stripRight l := by
  rw [stripRight, stripRight, List.reverse_reverse, dropWhile_of_dropWhile]

theorem dropWhile_stripRight (p : Char → Bool) (l : List Char)
    (h : l.dropWhile p = l) : (stripRight l).dropWhile p = stripRight l := by
  rcases stripRight_append l with ⟨w, hw, -⟩
  cases hsr : stripRight l with
  | nil => rfl
  | cons c rest =>
    rw [hsr] at hw
    rw [hw, List.cons_append, List.dropWhile_cons] at h
    split at h
    · exfalso
      -- dropping whitespace from the tail cannot re-create the head
      have hlen := congrArg List.length h
      simp only [List.length_cons, List.length_append] at hlen
      have := (@List.dropWhile_sublist Char (rest ++ w) p).length_le
      simp only [List.length_append] at this
      omega
    · rename_i hc
      rw [List.dropWhile_cons, if_neg hc]

theorem pyStrip_idem (l : List Char) :
    pyStrip (pyStrip l) = pyStrip l := by
  rw [pyStrip, pyStrip, dropWhile_stripRight isPySpace
    (l.dropWhile isPySpace) (dropWhile_of_dropWhile isPySpace l), stripRight_idem]

theorem rlc_of_no_pp (l : List Char) (h : ¬ hasSub ['/', '/'] l) :
    removeLineComment l = l := by
  unfold removeLineComment
  rw [findSub_none_of_not_hasSub _ _ h]

theorem normalizeChars_fixed (l : List Char)
    (hpp : ¬ hasSub ['/', '/'] l) (hterm : rbcTerminal l = true)
    (hstrip : pyStrip l = l) : normalizeChars l = l := by
  rw [normalizeChars, rlc_of_no_pp l hpp, rbc_of_terminal l hterm, hstrip]

theorem normalizeChars_idem (l : List Char) :
    normalizeChars (normalizeChars l) = normalizeChars l := by
  set q := removeBlockComments (removeLineComment l) with hq
  have hq_pp : ¬ hasSub ['/', '/'] q :=
    rbc_no_pp (removeLineComment l).length (removeLineComment l)
      (Nat.le_refl _) (rlc_no_pp l)
  have hq_term : rbcTerminal q = true := rbc_terminal (removeLineComment l)
  rcases pyStrip_decomp q with ⟨u, w, hdecomp⟩
  have hp_pp : ¬ hasSub ['/', '/'] (pyStrip q) := by
    intro h
    exact hq_pp (hdecomp ▸ hasSub_of_middle _ u _ w h)
  have hp_hb : ¬ hasBlock (pyStrip q) := by
    intro h
    exact not_hasBlock_of_terminal q hq_term (hdecomp ▸ hasBlock_middle u _ w h)
  have : normalizeChars l = pyStrip q := by rw [normalizeChars]
  rw [this]
  exact normalizeChars_fixed (pyStrip q) hp_pp
    (terminal_of_not_hasBlock _ hp_hb) (pyStrip_idem q)

/-! ### Step equations for the backtracking loop -/

theorem bt_zero (o n : List String) : backtrack o n 0 0 = [] := by
  rw [backtrack.eq_def]
  simp

theorem bt_match (o n : List String) (i j : Nat) (hi : 0 < i) (hj : 0 < j)
    (heq : o[i - 1]? = n[j - 1]?) :
    backtrack o n i j =
      ("match", (i : Int), (j : Int)) :: backtrack o n (i - 1) (j - 1) := by
  rw [backtrack.eq_def, dif_neg (by omega : ¬(i = 0 ∧ j = 0)),
    dif_pos ⟨hi, hj, heq⟩]

theorem bt_ins (o n : List String) (i j : Nat) (hj : 0 < j)
    (hne : ¬(0 < i ∧ 0 < j ∧ o[i - 1]? = n[j - 1]?))
    (htie : i = 0 ∨ dp o n i (j - 1) ≥ dp o n (i - 1) j) :
    backtrack o n i j =
      ("ins", (-1 : Int), (j : Int)) :: backtrack o n i (j - 1) := by
  rw [backtrack.eq_def, dif_neg (by omega : ¬(i = 0 ∧ j = 0)), dif_neg hne,
    dif_pos ⟨hj, htie⟩]

theorem bt_del (o n : List String) (i j : Nat) (hi : 0 < i)
    (hne : ¬(0 < i ∧ 0 < j ∧ o[i - 1]? = n[j - 1]?))
    (hno : ¬(0 < j ∧ (i = 0 ∨ dp o n i (j - 1) ≥ dp o n (i - 1) j))) :
    backtrack o n i j =
      ("del", (i : Int), (-1 : Int)) :: backtrack o n (i - 1) j := by
  rw [backtrack.eq_def, dif_neg (by omega : ¬(i = 0 ∧ j = 0)), dif_neg hne,
    dif_neg hno]

/-- In the delete branch the loop invariant forces `i > 0`. -/
theorem del_branch_pos (i j : Nat) (D : Prop) (h0 : ¬(i = 0 ∧ j = 0))
    (hno : ¬(0 < j ∧ (i = 0 ∨ D))) : 0 < i := by
  rcases Nat.eq_zero_or_pos i with hi | hi
  · exfalso
    rcases Nat.eq_zero_or_pos j with hj | hj
    · exact h0 ⟨hi, hj⟩
    · exact hno ⟨hj, Or.inl hi⟩
  · exact hi


/-! ### Head computations for op conversion, position lists and counts -/

theorem opsToMappings_cons_match (i j : Int) (rest : List (String × Int × Int)) :
    opsToMappings (("match", i, j) :: rest) = (i, j) :: opsToMappings rest := by
  simp [opsToMappings]

theorem opsToMappings_cons_ins (j : Int) (rest : List (String × Int × Int)) :
    opsToMappings (("ins", -1, j) :: rest) = (-1, j) :: opsToMappings rest := by
  simp [opsToMappings]

theorem opsToMappings_cons_del (i : Int) (rest : List (String × Int × Int)) :
    opsToMappings (("del", i, -1) :: rest) = (i, -1) :: opsToMappings rest := by
  simp [opsToMappings]

theorem origsOf_cons_keep (a b : Int) (ms : List (Int × Int))
    (hp : a ≠ -1) : origsOf ((a, b) :: ms) = a :: origsOf ms := by
  simp [origsOf, List.filterMap_cons, hp]

theorem origsOf_cons_drop (b : Int) (ms : List (Int × Int)) :
    origsOf ((-1, b) :: ms) = origsOf ms := by
  simp [origsOf, List.filterMap_cons]

theorem newsOf_cons_keep (a b : Int) (ms : List (Int × Int))
    (hp : b ≠ -1) : newsOf ((a, b) :: ms) = b :: newsOf ms := by
  simp [newsOf, List.filterMap_cons, hp]

theorem newsOf_cons_drop (a : Int) (ms : List (Int × Int)) :
    newsOf ((a, -1) :: ms) = newsOf ms := by
  simp [newsOf, List.filterMap_cons]

theorem matchedCount_cons (a b : Int) (ms : List (Int × Int)) :
    matchedCount ((a, b) :: ms) =
      matchedCount ms + if 0 < a ∧ 0 < b then 1 else 0 := by
  simp [matchedCount, List.countP_cons]

theorem removedCount_cons (a b : Int) (ms : List (Int × Int)) :
    removedCount ((a, b) :: ms) =
      removedCount ms + if 0 < a ∧ b = -1 then 1 else 0 := by
  simp [removedCount, List.countP_cons]

theorem addedCount_cons (a b : Int) (ms : List (Int × Int)) :
    addedCount ((a, b) :: ms) =
      addedCount ms + if a = -1 ∧ 0 < b then 1 else 0 := by
  simp [addedCount, List.countP_cons]


/-! ### Structure of the backtracking output -/

/-- Combined invariant of the backtracking loop: starting from `(i, j)`
the emitted mappings consume exactly the original positions `i..1` and
the new positions `j..1`, and the three summary counters add up. -/
theorem bt_structure (o n : List String) :
    ∀ (N i j : Nat), i + j ≤ N →
      origsOf (opsToMappings (backtrack o n i j)) = descInts i ∧
      newsOf (opsToMappings (backtrack o n i j)) = descInts j ∧
      matchedCount (opsToMappings (backtrack o n i j)) +
        removedCount (opsToMappings (backtrack o n i j)) = i ∧
      matchedCount (opsToMappings (backtrack o n i j)) +
        addedCount (opsToMappings (backtrack o n i j)) = j := by
  intro N
  induction N with
  | zero =>
    intro i j hij
    have hi : i = 0 := by omega
    have hj : j = 0 := by omega
    subst hi; subst hj
    rw [bt_zero]
    simp [opsToMappings, origsOf, newsOf, matchedCount, removedCount,
      addedCount, descInts]
  | succ N ih =>
    intro i j hij
    by_cases h0 : i = 0 ∧ j = 0
    · rcases h0 with ⟨rfl, rfl⟩
      rw [bt_zero]
      simp [opsToMappings, origsOf, newsOf, matchedCount, removedCount,
        addedCount, descInts]
    · by_cases hm : 0 < i ∧ 0 < j ∧ o[i - 1]? = n[j - 1]?
      · obtain ⟨i', rfl⟩ : ∃ i', i = i' + 1 := ⟨i - 1, by omega⟩
        obtain ⟨j', rfl⟩ : ∃ j', j = j' + 1 := ⟨j - 1, by omega⟩
        rw [bt_match o n _ _ hm.1 hm.2.1 hm.2.2]
        simp only [Nat.add_sub_cancel]
        obtain ⟨ho, hn, hc1, hc2⟩ := ih i' j' (by omega)
        rw [opsToMappings_cons_match]
        have ha : ((i' + 1 : Nat) : Int) ≠ -1 := by push_cast; omega
        have hb : ((j' + 1 : Nat) : Int) ≠ -1 := by push_cast; omega
        refine ⟨?_, ?_, ?_, ?_⟩
        · rw [origsOf_cons_keep _ _ _ ha, ho]
          simp [descInts]
        · rw [newsOf_cons_keep _ _ _ hb, hn]
          simp [descInts]
        · rw [matchedCount_cons, removedCount_cons]
          split_ifs <;> first | omega | tauto
        · rw [matchedCount_cons, addedCount_cons]
          split_ifs <;> first | omega | tauto
      · by_cases hins : 0 < j ∧ (i = 0 ∨ dp o n i (j - 1) ≥ dp o n (i - 1) j)
        · obtain ⟨j', rfl⟩ : ∃ j', j = j' + 1 := ⟨j - 1, by omega⟩
          rw [bt_ins o n _ _ hins.1 hm hins.2]
          simp only [Nat.add_sub_cancel]
          obtain ⟨ho, hn, hc1, hc2⟩ := ih i j' (by omega)
          rw [opsToMappings_cons_ins]
          have hb : ((j' + 1 : Nat) : Int) ≠ -1 := by push_cast; omega
          refine ⟨?_, ?_, ?_, ?_⟩
          · rw [origsOf_cons_drop, ho]
          · rw [newsOf_cons_keep _ _ _ hb, hn]
            simp [descInts]
          · rw [matchedCount_cons, removedCount_cons]
            split_ifs <;> first | omega | tauto
          · rw [matchedCount_cons, addedCount_cons]
            split_ifs <;> first | omega | tauto
        · have hi : 0 < i := del_branch_pos i j _ h0 hins
          obtain ⟨i', rfl⟩ : ∃ i', i = i' + 1 := ⟨i - 1, by omega⟩
          rw [bt_del o n _ _ hi hm hins]
          simp only [Nat.add_sub_cancel]
          obtain ⟨ho, hn, hc1, hc2⟩ := ih i' j (by omega)
          rw [opsToMappings_cons_del]
          have ha : ((i' + 1 : Nat) : Int) ≠ -1 := by push_cast; omega
          refine ⟨?_, ?_, ?_, ?_⟩
          · rw [origsOf_cons_keep _ _ _ ha, ho]
            simp [descInts]
          · rw [newsOf_cons_drop, hn]
          · rw [matchedCount_cons, removedCount_cons]
            split_ifs <;> first | omega | tauto
          · rw [matchedCount_cons, addedCount_cons]
            split_ifs <;> first | omega | tauto

theorem descInts_reverse (i : Nat) :
    (descInts i).reverse = (List.range' 1 i).map fun (k : Nat) => (k : Int) := by
  induction i with
  | zero => rfl
  | succ i ih =>
    rw [descInts, List.reverse_cons, ih, List.range'_concat, List.map_append]
    push_cast
    simp
    omega

theorem opsToMappings_reverse (ops : List (String × Int × Int)) :
    opsToMappings ops.reverse = (opsToMappings ops).reverse := by
  rw [opsToMappings, opsToMappings, List.map_reverse]

theorem origsOf_reverse (ms : List (Int × Int)) :
    origsOf ms.reverse = (origsOf ms).reverse := by
  rw [origsOf, origsOf, List.filterMap_reverse]

theorem newsOf_reverse (ms : List (Int × Int)) :
    newsOf ms.reverse = (newsOf ms).reverse := by
  rw [newsOf, newsOf, List.filterMap_reverse]

theorem matchedCount_reverse (ms : List (Int × Int)) :
    matchedCount ms.reverse = matchedCount ms := by
  rw [matchedCount, matchedCount, List.countP_reverse]

theorem removedCount_reverse (ms : List (Int × Int)) :
    removedCount ms.reverse = removedCount ms := by
  rw [removedCount, removedCount, List.countP_reverse]

theorem addedCount_reverse (ms : List (Int × Int)) :
    addedCount ms.reverse = addedCount ms := by
  rw [addedCount, addedCount, List.countP_reverse]

theorem map_lines_eq_reverse (o n : List String) :
    map_lines o n =
      (opsToMappings (backtrack o n o.length n.length)).reverse := by
  rw [map_lines, opsToMappings_reverse]

/-- Claim C1: for every pair of line sequences, the `origLine` values of the
`map_lines` output different from `-1` are exactly `1..n` (n = original
length), each exactly once, and the `newLine` values different from `-1`
are exactly `1..m` (m = new length), each exactly once. -/
theorem map_lines_partition_invariant (o n : List String) :
    List.Perm (origsOf (map_lines o n))
      ((List.range' 1 o.length).map fun (k : Nat) => (k : Int)) ∧
    List.Perm (newsOf (map_lines o n))
      ((List.range' 1 n.length).map fun (k : Nat) => (k : Int)) := by
  obtain ⟨ho, hn, -, -⟩ :=
    bt_structure o n (o.length + n.length) o.length n.length (Nat.le_refl _)
  constructor
  · rw [map_lines_eq_reverse, origsOf_reverse, ho, descInts_reverse]
  · rw [map_lines_eq_reverse, newsOf_reverse, hn, descInts_reverse]

/-- Claim C6: the summary counts of `main` over the `map_lines` output satisfy
`matched + removed = n` and `matched + added = m`. -/
theorem summary_count_consistency (o n : List String) :
    matchedCount (map_lines o n) + removedCount (map_lines o n) = o.length ∧
    matchedCount (map_lines o n) + addedCount (map_lines o n) = n.length := by
  obtain ⟨-, -, hc1, hc2⟩ :=
    bt_structure o n (o.length + n.length) o.length n.length (Nat.le_refl _)
  rw [map_lines_eq_reverse, matchedCount_reverse, removedCount_reverse,
    addedCount_reverse]
  exact ⟨hc1, hc2⟩

/-- Claim C2: in the backtracking step, whenever `i > 0`, `j > 0`, the current
lines are unequal and `dp[i][j-1] = dp[i-1][j]`, the loop emits Insert
and decrements `j` -- never Delete. -/
theorem backtrack_tie_break_insert (o n : List String) (i j : Nat)
    (hi : 0 < i) (hj : 0 < j) (hne : o[i - 1]? ≠ n[j - 1]?)
    (htie : dp o n i (j - 1) = dp o n (i - 1) j) :
    backtrack o n i j =
      ("ins", (-1 : Int), (j : Int)) :: backtrack o n i (j - 1) :=
  bt_ins o n i j hj (fun h => hne h.2.2) (Or.inr (le_of_eq htie.symm))

/-- Witness for C2 at a concrete tied input. -/
theorem backtrack_tie_break_insert_witness :
    0 < 1 ∧ (["A"] : List String)[0]? ≠ (["B"] : List String)[0]? ∧
    dp ["A"] ["B"] 1 0 = dp ["A"] ["B"] 0 1 ∧
    backtrack ["A"] ["B"] 1 1 =
      ("ins", (-1 : Int), (1 : Int)) :: backtrack ["A"] ["B"] 1 0 :=
  ⟨by decide, by decide, by decide,
    backtrack_tie_break_insert ["A"] ["B"] 1 1 (by decide) (by decide)
      (by decide) (by decide)⟩

/-! ### Alignment of sequences sharing no line -/

theorem dp_zero_right (o n : List String) (i : Nat) : dp o n i 0 = 0 := by
  cases i <;> rfl

theorem dp_succ_succ (o n : List String) (i j : Nat) :
    dp o n (i + 1) (j + 1) =
      if o[i]? = n[j]? then dp o n i j + 1
      else max (dp o n i (j + 1)) (dp o n (i + 1) j) := rfl

theorem getElem?_ne_of_disjoint (o n : List String)
    (hdisj : ∀ x ∈ o, ∀ y ∈ n, x ≠ y) (i j : Nat)
    (hi : i < o.length) (hj : j < n.length) : o[i]? ≠ n[j]? := by
  rw [List.getElem?_eq_getElem hi, List.getElem?_eq_getElem hj]
  intro h
  exact hdisj o[i] (List.getElem_mem hi) n[j] (List.getElem_mem hj)
    (Option.some_injective _ h)

theorem dp_disjoint (o n : List String)
    (hdisj : ∀ x ∈ o, ∀ y ∈ n, x ≠ y) :
    ∀ (N i j : Nat), i + j ≤ N → i ≤ o.length → j ≤ n.length →
      dp o n i j = 0 := by
  intro N
  induction N with
  | zero =>
    intro i j hij hi hj
    have : i = 0 := by omega
    subst this
    rfl
  | succ N ih =>
    intro i j hij hi hj
    cases i with
    | zero => rfl
    | succ i' =>
      cases j with
      | zero => exact dp_zero_right o n _
      | succ j' =>
        rw [dp_succ_succ,
          if_neg (getElem?_ne_of_disjoint o n hdisj i' j' (by omega) (by omega)),
          ih i' (j' + 1) (by omega) (by omega) (by omega),
          ih (i' + 1) j' (by omega) (by omega) (by omega)]
        simp

theorem backtrack_disjoint_del (o n : List String) :
    ∀ i : Nat, backtrack o n i 0 =
      (descInts i).map fun k => ("del", k, (-1 : Int)) := by
  intro i
  induction i with
  | zero => rw [bt_zero]; rfl
  | succ i' ih =>
    rw [bt_del o n _ _ (by omega) (by simp) (by simp), Nat.add_sub_cancel, ih,
      descInts]
    simp

theorem backtrack_disjoint (o n : List String)
    (hdisj : ∀ x ∈ o, ∀ y ∈ n, x ≠ y) :
    ∀ j i : Nat, j ≤ n.length → i ≤ o.length →
      backtrack o n i j =
        ((descInts j).map fun k => ("ins", (-1 : Int), k)) ++
        ((descInts i).map fun k => ("del", k, (-1 : Int))) := by
  intro j
  induction j with
  | zero =>
    intro i hj hi
    rw [backtrack_disjoint_del o n i, descInts]
    simp
  | succ j' ih =>
    intro i hj hi
    have hm : ¬(0 < i ∧ 0 < j' + 1 ∧ o[i - 1]? = n[j' + 1 - 1]?) := by
      rintro ⟨hi0, -, heq⟩
      exact getElem?_ne_of_disjoint o n hdisj (i - 1) j' (by omega)
        (by omega) (by simpa using heq)
    have htie : i = 0 ∨ dp o n i (j' + 1 - 1) ≥ dp o n (i - 1) (j' + 1) := by
      right
      rw [Nat.add_sub_cancel,
        dp_disjoint o n hdisj (i + j') i j' (Nat.le_refl _) hi (by omega),
        dp_disjoint o n hdisj (i + j' + 1) (i - 1) (j' + 1) (by omega)
          (by omega) (by omega)]
    rw [bt_ins o n _ _ (by omega) hm htie, Nat.add_sub_cancel,
      ih i (by omega) hi, descInts]
    simp

/-- Claim C5: aligning two sequences that share no normalized line yields
all-Delete for the original positions followed by all-Insert for the new
positions, both ascending, and no Match pair at all. -/
theorem map_lines_total_replacement (o n : List String)
    (hdisj : ∀ x ∈ o, ∀ y ∈ n, x ≠ y) :
    map_lines o n =
      ((List.range' 1 o.length).map fun (k : Nat) => ((k : Int), (-1 : Int))) ++
      ((List.range' 1 n.length).map fun (k : Nat) => ((-1 : Int), (k : Int))) ∧
    ∀ p ∈ map_lines o n, ¬(0 < p.1 ∧ 0 < p.2) := by
  have hmain : map_lines o n =
      ((List.range' 1 o.length).map fun (k : Nat) => ((k : Int), (-1 : Int))) ++
      ((List.range' 1 n.length).map fun (k : Nat) => ((-1 : Int), (k : Int))) := by
    rw [map_lines_eq_reverse,
      backtrack_disjoint o n hdisj n.length o.length (Nat.le_refl _)
        (Nat.le_refl _),
      opsToMappings, List.map_append, List.reverse_append,
      List.map_map, List.map_map, ← List.map_reverse, ← List.map_reverse,
      descInts_reverse, descInts_reverse, List.map_map, List.map_map]
    congr 1
  refine ⟨hmain, ?_⟩
  rw [hmain]
  intro p hp
  rcases List.mem_append.mp hp with h | h <;>
    rcases List.mem_map.mp h with ⟨k, -, rfl⟩
  · rintro ⟨-, h2⟩
    omega
  · rintro ⟨h1, -⟩
    omega

/-- Witness for C5 at a concrete disjoint input. -/
theorem map_lines_total_replacement_witness :
    (∀ x ∈ (["A"] : List String), ∀ y ∈ (["B"] : List String), x ≠ y) ∧
    map_lines ["A"] ["B"] = [(1, -1), (-1, 1)] :=
  ⟨by decide, by
    have h := (map_lines_total_replacement ["A"] ["B"] (by decide)).1
    rw [h]
    decide⟩

/-! ### Concrete scenarios -/

/-- Claim C3: the end-to-end example `["A","B","C"]` vs `["A","C","D"]`. -/
theorem map_lines_example_scenario :
    map_lines ["A", "B", "C"] ["A", "C", "D"] =
      [(1, 1), (2, -1), (3, 2), (-1, 3)] ∧
    matchedCount (map_lines ["A", "B", "C"] ["A", "C", "D"]) = 2 ∧
    removedCount (map_lines ["A", "B", "C"] ["A", "C", "D"]) = 1 ∧
    addedCount (map_lines ["A", "B", "C"] ["A", "C", "D"]) = 1 := by
  have hml : map_lines ["A", "B", "C"] ["A", "C", "D"] =
      [(1, 1), (2, -1), (3, 2), (-1, 3)] := by
    have h0 : map_lines ["A", "B", "C"] ["A", "C", "D"] =
        opsToMappings ((backtrack ["A", "B", "C"] ["A", "C", "D"] 3 3).reverse) :=
      rfl
    rw [h0,
      bt_ins ["A", "B", "C"] ["A", "C", "D"] 3 3 (by decide) (by decide)
        (by decide),
      bt_match ["A", "B", "C"] ["A", "C", "D"] 3 2 (by decide) (by decide)
        (by decide),
      bt_del ["A", "B", "C"] ["A", "C", "D"] 2 1 (by decide) (by decide)
        (by decide),
      bt_match ["A", "B", "C"] ["A", "C", "D"] 1 1 (by decide) (by decide)
        (by decide),
      bt_zero]
    decide
  exact ⟨hml, by rw [hml]; decide, by rw [hml]; decide, by rw [hml]; decide⟩

/-- Claim C4: `map_lines` is total, and on empty inputs it degenerates to
all-Insert / all-Delete. -/
theorem map_lines_total_and_empty_degenerate :
    (∀ o n : List String, ∃ ms, map_lines o n = ms) ∧
    map_lines [] ["X", "Y"] = [(-1, 1), (-1, 2)] ∧
    map_lines ["X"] [] = [(1, -1)] := by
  refine ⟨fun o n => ⟨map_lines o n, rfl⟩, ?_, ?_⟩
  · have h0 : map_lines [] ["X", "Y"] =
        opsToMappings ((backtrack [] ["X", "Y"] 0 2).reverse) := rfl
    rw [h0,
      bt_ins [] ["X", "Y"] 0 2 (by decide) (by decide) (by decide),
      bt_ins [] ["X", "Y"] 0 1 (by decide) (by decide) (by decide),
      bt_zero]
    decide
  · have h0 : map_lines ["X"] [] =
        opsToMappings ((backtrack ["X"] [] 1 0).reverse) := rfl
    rw [h0,
      bt_del ["X"] [] 1 0 (by decide) (by decide) (by decide),
      bt_zero]
    decide

/-- Claim C8: sanitizing the run name `"Test/One:2"` yields the output file
name `"Test_One_2.xml"`. -/
theorem output_filename_sanitization :
    outputFilename "Test/One:2" = "Test_One_2.xml" := by decide

/-- Claim C9: `map_lines` of `appVersion2.py` returns `None` on every input
(it has no return statement), and `main`'s stats line then iterates
`None`, which raises `TypeError`. -/
theorem map_linesV2_returns_none (o n : List String) :
    map_linesV2 o n = none ∧
    matchedV2 (map_linesV2 o n) = Except.error "TypeError" :=
  ⟨rfl, rfl⟩

/-- Claim C10: `normalize_line` is idempotent. -/
theorem normalize_line_idempotent (s : String) :
    normalize_line (normalize_line s) = normalize_line s := by
  have h : normalize_line (normalize_line s) =
      String.mk (normalizeChars (normalizeChars s.toList)) := rfl
  rw [h, normalizeChars_idem]
  rfl

/-! ### Normalization of the documented `"int"` example lines -/

theorem normalize_quoted_comment_line :
    normalize_line "\"int\" /* comment */" = "\"int\"" := by
  show String.mk (pyStrip (removeBlockComments
    (removeLineComment ("\"int\" /* comment */".toList)))) = "\"int\""
  rw [show removeLineComment ("\"int\" /* comment */".toList) =
      "\"int\" /* comment */".toList from by decide,
    rbc_step _ 6 9 (by decide) (by decide),
    show ("\"int\" /* comment */".toList.take 6 ++
      "\"int\" /* comment */".toList.drop 19) = "\"int\" ".toList from by decide,
    rbc_of_no_open _ (by decide)]
  decide

theorem normalize_bare_int_line : normalize_line "int" = "int" := by
  show String.mk (pyStrip (removeBlockComments
    (removeLineComment ("int".toList)))) = "int"
  rw [show removeLineComment ("int".toList) = "int".toList from by decide,
    rbc_of_no_open _ (by decide)]
  decide

theorem normalize_quoted_int_line : normalize_line "\"int\"" = "\"int\"" := by
  show String.mk (pyStrip (removeBlockComments
    (removeLineComment ("\"int\"".toList)))) = "\"int\""
  rw [show removeLineComment ("\"int\"".toList) = "\"int\"".toList from by
      decide,
    rbc_of_no_open _ (by decide)]
  decide

/-- Claim C7 counterexample: the line `"int" /* comment */` (quotes included,
as in the code's docstring) normalizes to `"int"` with its quotes, so it
does NOT normalize identically to the bare line `int`. -/
theorem normalize_line_quote_mismatch_counterexample :
    normalize_line "\"int\" /* comment */" = "\"int\"" ∧
    normalize_line "int" = "int" ∧
    normalize_line "\"int\" /* comment */" ≠ normalize_line "int" := by
  refine ⟨normalize_quoted_comment_line, normalize_bare_int_line, ?_⟩
  rw [normalize_quoted_comment_line, normalize_bare_int_line]
  decide

/-- Claim C7 amended: the line `"int" /* comment */` and the line `"int"`
(quotes on both, per the docstring of `normalize_line`) normalize
identically, and aligning those two lines produces the Match pair
`(1, 1)`. -/
theorem normalize_line_comment_insensitive_amended :
    normalize_line "\"int\" /* comment */" = normalize_line "\"int\"" ∧
    map_lines [normalize_line "\"int\" /* comment */"]
      [normalize_line "\"int\""] = [(1, 1)] := by
  have h1 := normalize_quoted_comment_line
  have h2 := normalize_quoted_int_line
  refine ⟨by rw [h1, h2], ?_⟩
  rw [h1, h2]
  have h0 : map_lines ["\"int\""] ["\"int\""] =
      opsToMappings ((backtrack ["\"int\""] ["\"int\""] 1 1).reverse) := rfl
  rw [h0,
    bt_match ["\"int\""] ["\"int\""] 1 1 (by decide) (by decide) (by decide),
    bt_zero]
  decide
